import Mathlib

/-!
Shallow embedding of the summarizing/paraphrasing tool (`src/app.py`).

Text is modelled as `List Char`.  Python floats are modelled by exact
rationals (`ℚ`) and, where a square root occurs, by reals (`ℝ`).  The
`random` module is modelled by explicit streams of draws, so that the
randomized paraphraser becomes a deterministic function of the stream.
-/

namespace App

/-- Whitespace class of the regex `\s` and of `str.strip()` (ASCII part). -/
def isSpace (c : Char) : Bool :=
  c = ' ' || c = '\t' || c = '\n' || c = '\r' || c = '\x0b' || c = '\x0c'

/-- Word-character class of the regex `\w` (ASCII part). -/
def isWordChar (c : Char) : Bool :=
  c.isAlpha || c.isDigit || c = '_'

/-- Sentence-ending punctuation used by the lookbehind `(?<=[.!?])`. -/
def isPunctEnd (c : Char) : Bool :=
  c = '.' || c = '!' || c = '?'

/-- Python `str.lower()` (ASCII part). -/
def toLowerStr (l : List Char) : List Char := l.map Char.toLower

/-- Python `str.strip()`: remove leading and trailing whitespace. -/
def trimChars (l : List Char) : List Char :=
  List.rdropWhile isSpace (List.dropWhile isSpace l)

/-- Partition a character list into the maximal runs of characters of equal
`isWordChar` class.  The word runs are the matches of the regex `\w+`, and
the full run list is the match list of `re.findall(r"\w+|\W+", s)`. -/
def classRuns : List Char → List (List Char)
  | [] => []
  | [c] => [[c]]
  | c :: d :: ds =>
    if isWordChar c = isWordChar d then
      match classRuns (d :: ds) with
      | r :: rs => (c :: r) :: rs
      | [] => [[c]]
    else [c] :: classRuns (d :: ds)

/-- Head class of a run: `true` exactly on the `\w+` matches. -/
def isWordRun (r : List Char) : Bool :=
  match r with
  | [] => false
  | c :: _ => isWordChar c

/-- The matches of `re.findall(r'\w+', l)`: the maximal word-character runs. -/
def wordsOf (l : List Char) : List (List Char) :=
  (classRuns l).filter isWordRun

/-- State machine for `re.split(r'(?<=[.!?])\s+', text)`.  The flag records
whether the previous character was sentence-ending punctuation; the head of
the result is the piece currently being built.  The regex consumes the whole
whitespace run; here only its first character is consumed, and the remaining
run (now preceded by whitespace, so it cannot re-trigger the lookbehind)
lands at the front of the next piece, where `split_sentences` strips it. -/
def sentSplit : Bool → List Char → List (List Char)
  | _, [] => [[]]
  | p, c :: cs =>
    if p && isSpace c then
      [] :: sentSplit false cs
    else
      match sentSplit (isPunctEnd c) cs with
      | piece :: rest => (c :: piece) :: rest
      | [] => [[c]]

/-- Embedding of `split_sentences` (`src/app.py` lines 43-48): strip the
text, split after sentence punctuation, strip each piece, drop empties. -/
def split_sentences (text : List Char) : List (List Char) :=
  ((sentSplit false (trimChars text)).map trimChars).filter
    (fun s => decide (s ≠ []))

/-- The stopword set of `src/app.py` lines 19-22. -/
def STOPWORDS : List (List Char) :=
  ["the".toList, "and".toList, "is".toList, "in".toList, "it".toList,
   "of".toList, "to".toList, "a".toList, "an".toList, "that".toList,
   "this".toList, "on".toList, "for".toList, "with".toList, "as".toList,
   "are".toList, "was".toList, "were".toList, "by".toList, "be".toList,
   "or".toList, "from".toList, "at".toList, "which".toList, "but".toList,
   "not".toList, "have".toList, "has".toList, "had".toList, "they".toList,
   "you".toList, "we".toList, "he".toList, "she".toList, "his".toList,
   "her".toList]

/-- The words counted by the frequency loop (`src/app.py` lines 57-61):
`re.findall(r'\w+', text.lower())` with stopwords skipped.  The key set of
the dict `freqs` is exactly the set of members of this list. -/
def contentWords (text : List Char) : List (List Char) :=
  (wordsOf (toLowerStr text)).filter (fun w => decide (w ∉ STOPWORDS))

/-- Value of `freqs[w]` before normalization: the occurrence count. -/
def rawFreq (text : List Char) (w : List Char) : ℕ :=
  (contentWords text).count w

/-- Value of `max(freqs.values())` (and `0` when the dict is empty). -/
def maxFreq (text : List Char) : ℕ :=
  ((contentWords text).map (rawFreq text)).foldr max 0

/-- Value of `freqs.get(w, 0)` after the normalization loop
(`src/app.py` lines 63-67): `count/maxf` for a key, `0` otherwise. -/
def normFreq (text : List Char) (w : List Char) : ℚ :=
  if w ∈ contentWords text then (rawFreq text w : ℚ) / (maxFreq text : ℚ)
  else 0

/-- The `s_words` of a sentence: `re.findall(r'\w+', s.lower())`. -/
def sentWords (s : List Char) : List (List Char) :=
  wordsOf (toLowerStr s)

/-- Numerator of a sentence score over the common denominator `maxFreq`:
the Python loop sums `freqs.get(w, 0) = rawFreq w / maxFreq`, so the sum is
`scoreNum / maxFreq`. -/
def scoreNum (text : List Char) (s : List Char) : ℕ :=
  ((sentWords s).map (rawFreq text)).sum

/-- Exact comparison key for the float score
`score / len(s_words) ** 0.5` (with `0` for an empty sentence): the pair
`(a, b)` denotes the square of the score times `maxFreq ^ 2`, namely
`a / b`.  Squaring is order-preserving since all scores are nonnegative,
and the common factor `maxFreq ^ 2` cancels in comparisons. -/
def scoreKey (text : List Char) (s : List Char) : ℕ × ℕ :=
  if (sentWords s).length = 0 then (0, 1)
  else ((scoreNum text s) ^ 2, (sentWords s).length)

/-- Comparison of two score keys as fractions: `a ≥ b`. -/
def keyGe (a b : ℕ × ℕ) : Prop := b.1 * a.2 ≤ a.1 * b.2

instance : DecidableRel keyGe :=
  fun a b => inferInstanceAs (Decidable (b.1 * a.2 ≤ a.1 * b.2))

instance : DecidableRel (fun (a b : List Char × (ℕ × ℕ)) => keyGe a.2 b.2) :=
  fun a b => inferInstanceAs (Decidable (keyGe a.2 b.2))

/-- The sentence count kept by the summarizer (`src/app.py` lines 81-82):
`k = max(min_sentences, ceil(len(sentences) * ratio)); k = min(k, len(sentences))`. -/
def keepCount (n : ℕ) (ratio : ℚ) (min_sentences : ℕ) : ℕ :=
  (min (max (min_sentences : ℤ) ⌈(n : ℚ) * ratio⌉) (n : ℤ)).toNat

/-- The `sent_scores` list: sentences paired with their score keys. -/
def sentenceKeys (text : List Char) (sentences : List (List Char)) :
    List (List Char × (ℕ × ℕ)) :=
  sentences.map (fun s => (s, scoreKey text s))

/-- The set `chosen` (`src/app.py` lines 85-86): the sentences of the top
`k` entries of `sent_scores` sorted by descending score (stable, as
Python's `sorted` is; insertion sort with a non-strict relation is stable
in the same way). -/
def topChosen (text : List Char) (sentences : List (List Char)) (k : ℕ) :
    List (List Char) :=
  ((List.insertionSort (fun a b => keyGe a.2 b.2)
      (sentenceKeys text sentences)).take k).map Prod.fst

/-- Embedding of `summarize_text` (`src/app.py` lines 51-88). -/
def summarize_text (text : List Char) (ratio : ℚ) (min_sentences : ℕ) :
    List (List Char) :=
  if (split_sentences text).length ≤ min_sentences then split_sentences text
  else
    (split_sentences text).filter (fun s =>
      decide (s ∈ topChosen text (split_sentences text)
        (keepCount (split_sentences text).length ratio min_sentences)))

/-- The float score accumulated by the loop of `src/app.py` lines 73-75:
`score = 0.0`, then `score += freqs.get(w, 0)` for each sentence word. -/
def sumFreqs (text : List Char) (s : List Char) : ℚ :=
  (sentWords s).foldl (fun acc w => acc + normFreq text w) 0

/-- The float score of a sentence after the length penalty
(`src/app.py` line 77): `score / len(s_words) ** 0.5` when `s_words` is
non-empty, `0` otherwise.  Floats are modelled by reals. -/
noncomputable def sentScoreVal (text : List Char) (s : List Char) : ℝ :=
  if (sentWords s).length = 0 then 0
  else (sumFreqs text s : ℝ) / Real.sqrt ((sentWords s).length)

/-- Explicit model of the `random` module: a stream of `random.random()`
draws, a stream of `random.choice` index draws, and the permutation that a
`random.shuffle` call would apply. -/
structure Rng where
  rand : ℕ → ℚ
  pick : ℕ → ℕ
  shuffle : List (List Char) → List (List Char)

/-- The fallback thesaurus `FALLBACK_SYNS` (`src/app.py` lines 25-40). -/
def FALLBACK_SYNS : List (List Char × List (List Char)) :=
  [("good".toList,
    ["great".toList, "nice".toList, "excellent".toList, "solid".toList]),
   ("bad".toList, ["poor".toList, "subpar".toList, "weak".toList]),
   ("important".toList, ["crucial".toList, "vital".toList, "key".toList]),
   ("use".toList, ["utilize".toList, "employ".toList, "apply".toList]),
   ("help".toList, ["assist".toList, "aid".toList, "support".toList]),
   ("show".toList, ["display".toList, "present".toList, "reveal".toList]),
   ("change".toList,
    ["modify".toList, "alter".toList, "transform".toList]),
   ("make".toList, ["create".toList, "produce".toList, "build".toList]),
   ("need".toList, ["require".toList, "necessitate".toList]),
   ("find".toList, ["discover".toList, "locate".toList]),
   ("get".toList, ["obtain".toList, "acquire".toList]),
   ("big".toList,
    ["large".toList, "substantial".toList, "considerable".toList]),
   ("small".toList, ["tiny".toList, "compact".toList, "minor".toList]),
   ("start".toList, ["begin".toList, "commence".toList, "initiate".toList])]

/-- Dict lookup `FALLBACK_SYNS[word]` as an option. -/
def lookupSyns (w : List Char) : Option (List (List Char)) :=
  (FALLBACK_SYNS.find? (fun kv => decide (kv.1 = w))).map Prod.snd

/-- Python `word.endswith("ing")`. -/
def endsIng (w : List Char) : Bool :=
  decide (w.reverse.take 3 = ['g', 'n', 'i'])

/-- Embedding of `synonym_for` (`src/app.py` lines 121-148) in the
configuration where NLTK WordNet is unavailable (`USE_NLTK == False`), so
the function goes straight to the fallback thesaurus.  `random.choice` is
modelled by an index draw `pick`, reduced modulo the list length. -/
def synonym_for (pick : ℕ) (word : List Char) : List Char :=
  match lookupSyns (toLowerStr word) with
  | some syns => syns.getD (pick % syns.length) []
  | none =>
    if endsIng word = true ∧ 4 < word.length then word.take (word.length - 3)
    else word

/-- Python `str.capitalize()`: first character upper-cased, rest lowered. -/
def capitalizeTok : List Char → List Char
  | [] => []
  | c :: cs => c.toUpper :: cs.map Char.toLower

/-- The token loop of `paraphrase_text` (`src/app.py` lines 99-112) over
the tokens of one sentence.  `i` and `j` index the next unread draw of the
`rand` and `pick` streams; the function returns the new token list together
with the advanced indices.  The guard `re.match(r'^\w+$', t)` is `isWordRun`
because the tokens are the maximal single-class runs of the sentence. -/
def paraTokens (rng : Rng) (strength : ℚ) :
    List (List Char) → ℕ → ℕ → List (List Char) × ℕ × ℕ
  | [], i, j => ([], i, j)
  | t :: ts, i, j =>
    if isWordRun t then
      if rng.rand i < strength then
        let cand0 := synonym_for (rng.pick j) (toLowerStr t)
        let cand := if (t.headD ' ').isUpper then capitalizeTok cand0 else cand0
        let r := paraTokens rng strength ts (i + 1) (j + 1)
        (cand :: r.1, r.2)
      else
        let r := paraTokens rng strength ts (i + 1) j
        (t :: r.1, r.2)
    else
      let r := paraTokens rng strength ts i j
      (t :: r.1, r.2)

/-- The sentence loop of `paraphrase_text` (`src/app.py` lines 97-114):
tokenize each sentence, rewrite its tokens, and join them back with
`"".join`. -/
def paraSentences (rng : Rng) (strength : ℚ) :
    List (List Char) → ℕ → ℕ → List (List Char) × ℕ × ℕ
  | [], i, j => ([], i, j)
  | s :: ss, i, j =>
    let r := paraTokens rng strength (classRuns s) i j
    let r2 := paraSentences rng strength ss r.2.1 r.2.2
    (r.1.flatten :: r2.1, r2.2)

/-- Embedding of `paraphrase_text` (`src/app.py` lines 91-119): paraphrase
each sentence, optionally shuffle (probability `0.2 * strength`), and join
with single spaces. -/
def paraphrase_text (rng : Rng) (strength : ℚ) (text : List Char) :
    List Char :=
  let r := paraSentences rng strength (split_sentences text) 0 0
  let final :=
    if 1 < r.1.length ∧ rng.rand r.2.1 < (1 / 5) * strength
    then rng.shuffle r.1 else r.1
  List.intercalate [' '] final

/-- JSON body of a `/summarize` request: the optional `text`, `ratio` and
`min_sentences` fields, already of the types that `str`/`float`/`int`
coercion produces on well-formed data. -/
structure SummarizeReq where
  text : Option (List Char)
  ratio : Option ℚ
  min_sentences : Option ℕ

/-- JSON body of a `/paraphrase` request. -/
structure ParaphraseReq where
  text : Option (List Char)
  strength : Option ℚ

/-- Embedding of the `/summarize` endpoint (`src/app.py` lines 154-164):
`error` carries the HTTP status and message of the `ok: False` branch, `ok`
carries the joined summary string and the sentence list. -/
def api_summarize (req : SummarizeReq) :
    Except (ℕ × List Char) (List Char × List (List Char)) :=
  let text := trimChars (req.text.getD [])
  let m := req.min_sentences.getD 1
  if text = [] then .error (400, "No text provided.".toList)
  else
    .ok (List.intercalate [' '] (summarize_text text (req.ratio.getD (3 / 10)) m),
         summarize_text text (req.ratio.getD (3 / 10)) m)

/-- Embedding of the `/paraphrase` endpoint (`src/app.py` lines 166-174). -/
def api_paraphrase (rng : Rng) (req : ParaphraseReq) :
    Except (ℕ × List Char) (List Char) :=
  let text := trimChars (req.text.getD [])
  if text = [] then .error (400, "No text provided.".toList)
  else .ok (paraphrase_text rng (req.strength.getD (3 / 10)) text)

end App

namespace App

-- Concrete sanity checks of the splitter.
example :
    split_sentences ("Hello world. How are you?  Fine!".toList) =
      ["Hello world.".toList, "How are you?".toList, "Fine!".toList] := by
  decide

example :
    split_sentences ("  One sentence only  ".toList) =
      ["One sentence only".toList] := by
  decide

example : split_sentences ("   ".toList) = [] := by decide

example :
    classRuns ("ab, c!".toList) =
      ["ab".toList, ", ".toList, "c".toList, "!".toList] := by
  decide

example :
    wordsOf ("ab, c!".toList) = ["ab".toList, "c".toList] := by
  decide

/-- Evaluation helper: compute `keepCount` once the ceiling is located
between consecutive integers. -/
theorem keepCount_eval (n : ℕ) (r : ℚ) (m : ℕ) (z : ℤ)
    (h1 : (z : ℚ) - 1 < (n : ℚ) * r) (h2 : (n : ℚ) * r ≤ (z : ℚ)) :
    keepCount n r m = (min (max (m : ℤ) z) (n : ℤ)).toNat := by
  unfold keepCount
  rw [Int.ceil_eq_iff.mpr ⟨h1, h2⟩]

/-- A prefix of a `dropWhile` result is itself `dropWhile`-stable. -/
theorem dropWhile_eq_self_of_start {α : Type} (p : α → Bool) (L m : List α)
    (h : ∃ t, m ++ t = List.dropWhile p L) : List.dropWhile p m = m := by
  obtain ⟨t, ht⟩ := h
  cases m with
  | nil => rfl
  | cons a m' =>
    have hd : List.dropWhile p L = a :: (m' ++ t) := by rw [← ht]; simp
    have hne : List.dropWhile p L ≠ [] := by rw [hd]; simp
    have hpa : p a = false := by
      have hh := List.head_dropWhile_not p L hne
      rwa [List.head_eq_iff_head?_eq_some hne |>.mpr (by rw [hd]; rfl)] at hh
    rw [List.dropWhile_cons, hpa]
    simp

/-- Stripping is idempotent: a stripped string strips to itself. -/
theorem trimChars_idem (l : List Char) : trimChars (trimChars l) = trimChars l := by
  unfold trimChars
  rw [dropWhile_eq_self_of_start isSpace l _
        ( List.rdropWhile_prefix isSpace (List.dropWhile isSpace l)),
      List.rdropWhile_idempotent]

/-- C9: for every input text, every string in the list returned by
`split_sentences` is non-empty and has no leading or trailing whitespace
(equivalently, stripping it changes nothing). -/
theorem split_sentences_sane (text : List Char) (s : List Char)
    (h : s ∈ split_sentences text) : s ≠ [] ∧ trimChars s = s := by
  unfold split_sentences at h
  rw [List.mem_filter] at h
  obtain ⟨hmem, hne⟩ := h
  rw [List.mem_map] at hmem
  obtain ⟨s', _, rfl⟩ := hmem
  exact ⟨of_decide_eq_true hne, trimChars_idem s'⟩

/-- Witness for C9 at a concrete text and sentence. -/
theorem split_sentences_sane_witness :
    "Fine!".toList ∈ split_sentences ("Hello world. How are you?  Fine! ".toList) ∧
      "Fine!".toList ≠ [] ∧ trimChars ("Fine!".toList) = "Fine!".toList :=
  ⟨by decide,
   split_sentences_sane ("Hello world. How are you?  Fine! ".toList)
     ("Fine!".toList) (by decide)⟩

/-- C8: for every input text that splits into at most `min_sentences`
sentences, `summarize_text` returns the full sentence list unchanged. -/
theorem summarize_small_input (text : List Char) (ratio : ℚ)
    (min_sentences : ℕ)
    (h : (split_sentences text).length ≤ min_sentences) :
    summarize_text text ratio min_sentences = split_sentences text := by
  unfold summarize_text
  rw [if_pos h]

/-- Witness for C8: a two-sentence text with `min_sentences = 3`. -/
theorem summarize_small_input_witness :
    (split_sentences ("Hi there. Bye now.".toList)).length ≤ 3 ∧
      summarize_text ("Hi there. Bye now.".toList) (3 / 10) 3
        = split_sentences ("Hi there. Bye now.".toList) :=
  ⟨by decide, summarize_small_input _ _ _ (by decide)⟩

/-- C2: for every input text, ratio and `min_sentences`, the summary is a
subsequence of the sentence list: each returned sentence is one of the split
sentences and the relative order is preserved. -/
theorem summary_sublist (text : List Char) (ratio : ℚ) (min_sentences : ℕ) :
    (summarize_text text ratio min_sentences).Sublist (split_sentences text) := by
  unfold summarize_text
  split
  · exact List.Sublist.refl _
  · exact List.filter_sublist _

/-- C7: `summarize_text` is deterministic: two runs on equal inputs return
equal outputs. -/
theorem summarize_deterministic (t₁ t₂ : List Char) (r₁ r₂ : ℚ)
    (m₁ m₂ : ℕ) (ht : t₁ = t₂) (hr : r₁ = r₂) (hm : m₁ = m₂) :
    summarize_text t₁ r₁ m₁ = summarize_text t₂ r₂ m₂ := by
  rw [ht, hr, hm]

/-- Witness for C7 at concrete equal inputs. -/
theorem summarize_deterministic_witness :
    summarize_text ("Hi there. Bye now.".toList) (3 / 10) 1
      = summarize_text ("Hi there. Bye now.".toList) (3 / 10) 1 :=
  summarize_deterministic _ _ _ _ _ _ rfl rfl rfl

/-- Every member of a list of naturals is bounded by the `foldr max 0`. -/
theorem le_foldr_max {x : ℕ} : ∀ {l : List ℕ}, x ∈ l → x ≤ l.foldr max 0 := by
  intro l
  induction l with
  | nil => intro h; cases h
  | cons a t ih =>
    intro h
    rcases List.mem_cons.mp h with rfl | hm
    · exact le_max_left _ _
    · exact le_trans (ih hm) (le_max_right _ _)

/-- The `foldr max 0` of a list of naturals is `0` or one of its members. -/
theorem foldr_max_mem :
    ∀ l : List ℕ, l.foldr max 0 = 0 ∨ l.foldr max 0 ∈ l := by
  intro l
  induction l with
  | nil => exact Or.inl rfl
  | cons a t ih =>
    simp only [List.foldr_cons]
    rcases le_total a (t.foldr max 0) with h | h
    · rw [max_eq_right h]
      rcases ih with h0 | hm
      · exact Or.inl h0
      · exact Or.inr (List.mem_cons_of_mem a hm)
    · rw [max_eq_left h]
      exact Or.inr (List.mem_cons_self a t)

/-- C4: the word-frequency table contains no stopword; stopwords get value
`0`; and when the table is non-empty every stored frequency lies in `(0, 1]`
and the maximum stored frequency is `1`. -/
theorem freq_table_normalized (text : List Char) :
    (∀ w ∈ contentWords text, w ∉ STOPWORDS) ∧
    (∀ w ∈ STOPWORDS, normFreq text w = 0) ∧
    (contentWords text ≠ [] →
      (∀ w ∈ contentWords text, 0 < normFreq text w ∧ normFreq text w ≤ 1) ∧
      ∃ w ∈ contentWords text, normFreq text w = 1) := by
  refine ⟨?_, ?_, ?_⟩
  · intro w hw
    exact of_decide_eq_true (List.mem_filter.mp hw).2
  · intro w hw
    have hnot : w ∉ contentWords text := fun hc =>
      (of_decide_eq_true (List.mem_filter.mp hc).2) hw
    unfold normFreq
    rw [if_neg hnot]
  · intro hne
    have hmax_mem : ∀ w ∈ contentWords text, rawFreq text w ≤ maxFreq text := by
      intro w hw
      exact le_foldr_max (List.mem_map.mpr ⟨w, hw, rfl⟩)
    have hraw_pos : ∀ w ∈ contentWords text, 0 < rawFreq text w := by
      intro w hw
      exact List.count_pos_iff.mpr hw
    have hmax_pos : 0 < maxFreq text := by
      obtain ⟨w, hw⟩ := List.exists_mem_of_ne_nil _ hne
      exact lt_of_lt_of_le (hraw_pos w hw) (hmax_mem w hw)
    constructor
    · intro w hw
      unfold normFreq
      rw [if_pos hw]
      constructor
      · apply div_pos
        · exact_mod_cast hraw_pos w hw
        · exact_mod_cast hmax_pos
      · rw [div_le_one (by exact_mod_cast hmax_pos)]
        exact_mod_cast hmax_mem w hw
    · have hmm := foldr_max_mem ((contentWords text).map (rawFreq text))
      rcases hmm with h0 | hm
      · exact absurd (show maxFreq text = 0 from h0) hmax_pos.ne'
      · obtain ⟨w, hw, hwe⟩ := List.mem_map.mp hm
        refine ⟨w, hw, ?_⟩
        unfold normFreq
        rw [if_pos hw]
        have hwm : rawFreq text w = maxFreq text := hwe
        rw [hwm, div_self (Nat.cast_ne_zero.mpr hmax_pos.ne')]

/-- Witness for C4 at a concrete text with a non-empty table. -/
theorem freq_table_normalized_witness :
    contentWords ("Cats run. Cats nap.".toList) ≠ [] ∧
      ((∀ w ∈ contentWords ("Cats run. Cats nap.".toList),
          0 < normFreq ("Cats run. Cats nap.".toList) w ∧
            normFreq ("Cats run. Cats nap.".toList) w ≤ 1) ∧
        ∃ w ∈ contentWords ("Cats run. Cats nap.".toList),
          normFreq ("Cats run. Cats nap.".toList) w = 1) :=
  ⟨by decide,
   (freq_table_normalized ("Cats run. Cats nap.".toList)).2.2 (by decide)⟩

/-- Filtering a duplicate-free list by membership in a duplicate-free
sub-collection keeps exactly the collection's elements. -/
theorem length_filter_mem_of_nodup {α : Type} (l c : List α)
    (p : α → Bool) (hp : ∀ x, p x = true ↔ x ∈ c)
    (hl : l.Nodup) (hc : c.Nodup) (hsub : ∀ x ∈ c, x ∈ l) :
    (l.filter p).length = c.length := by
  have hperm : (l.filter p).Perm c := by
    rw [List.perm_ext_iff_of_nodup (hl.filter _) hc]
    intro a
    simp only [List.mem_filter, hp]
    exact ⟨fun h => h.2, fun h => ⟨hsub a h, h⟩⟩
  exact hperm.length_eq

/-- C3 counterexample: on the text `"A. A. B."` (three sentences, two of
them equal as strings) with `ratio = 1/2` and `min_sentences = 1`, the code
keeps `k = 2` top entries but the final membership filter re-admits both
copies of `"A."`, so the summary has 3 sentences, not
`min(max(min_sentences, ceil(n * ratio)), n) = 2`. -/
theorem summary_count_cex :
    1 < (split_sentences ("A. A. B.".toList)).length ∧
      (summarize_text ("A. A. B.".toList) (1 / 2) 1).length
        ≠ keepCount (split_sentences ("A. A. B.".toList)).length (1 / 2) 1 := by
  have hs : split_sentences ("A. A. B.".toList)
      = ["A.".toList, "A.".toList, "B.".toList] := by decide
  have hk : keepCount 3 (1 / 2) 1 = 2 := by
    rw [keepCount_eval 3 (1 / 2) 1 2 (by norm_num) (by norm_num)]
    decide
  refine ⟨by rw [hs]; decide, ?_⟩
  have hsum : summarize_text ("A. A. B.".toList) (1 / 2) 1
      = ["A.".toList, "A.".toList, "B.".toList] := by
    unfold summarize_text
    rw [hs]
    have hlen : ([ "A.".toList, "A.".toList, "B.".toList ]
        : List (List Char)).length = 3 := rfl
    rw [hlen, hk]
    decide
  rw [hsum, hs]
  intro h
  rw [show (["A.".toList, "A.".toList, "B.".toList]
      : List (List Char)).length = 3 from rfl, hk] at h
  exact absurd h (by decide)

/-- C3 amended: when the split sentences are pairwise distinct (and there
are more than `min_sentences` of them), the summary has exactly
`min(max(min_sentences, ceil(n * ratio)), n)` sentences. -/
theorem summary_count_of_nodup (text : List Char) (ratio : ℚ)
    (min_sentences : ℕ)
    (hgt : min_sentences < (split_sentences text).length)
    (hnd : (split_sentences text).Nodup) :
    (summarize_text text ratio min_sentences).length
      = keepCount (split_sentences text).length ratio min_sentences := by
  set S := split_sentences text with hS
  set k := keepCount S.length ratio min_sentences with hkdef
  have hk_le : k ≤ S.length := by
    rw [hkdef]
    unfold keepCount
    exact Int.toNat_le.mpr (min_le_right _ _)
  unfold summarize_text
  rw [← hS, if_neg (not_le.mpr hgt), ← hkdef]
  set sorted :=
    List.insertionSort (fun a b => keyGe a.2 b.2) (sentenceKeys text S)
    with hsorted
  have hperm : sorted.Perm (sentenceKeys text S) :=
    List.perm_insertionSort _ _
  have hfst : (sentenceKeys text S).map Prod.fst = S := by
    unfold sentenceKeys
    rw [List.map_map]
    exact List.map_id _
  have hmap_perm : (sorted.map Prod.fst).Perm S := by
    rw [← hfst]
    exact hperm.map Prod.fst
  have htop : topChosen text S k = (sorted.map Prod.fst).take k := by
    unfold topChosen
    rw [← hsorted, List.map_take]
  have hnd_map : (sorted.map Prod.fst).Nodup :=
    (hmap_perm.nodup_iff).mpr hnd
  have hnd_top : (topChosen text S k).Nodup := by
    rw [htop]
    exact (List.take_sublist _ _).nodup hnd_map
  have hsub : ∀ x ∈ topChosen text S k, x ∈ S := by
    intro x hx
    rw [htop] at hx
    exact hmap_perm.mem_iff.mp ((List.take_sublist _ _).mem hx)
  have hlen_top : (topChosen text S k).length = k := by
    rw [htop, List.length_take, hmap_perm.length_eq]
    exact min_eq_left hk_le
  exact (length_filter_mem_of_nodup S (topChosen text S k) _
    (fun x => by simp) hnd hnd_top hsub).trans hlen_top

/-- Witness for the amended C3 at a three-sentence duplicate-free text. -/
theorem summary_count_of_nodup_witness :
    1 < (split_sentences ("Dog runs. Cat sleeps. Bird sings.".toList)).length ∧
      (split_sentences ("Dog runs. Cat sleeps. Bird sings.".toList)).Nodup ∧
      (summarize_text ("Dog runs. Cat sleeps. Bird sings.".toList) (1 / 2) 1).length
        = keepCount
            (split_sentences ("Dog runs. Cat sleeps. Bird sings.".toList)).length
            (1 / 2) 1 :=
  ⟨by decide, by decide,
   summary_count_of_nodup ("Dog runs. Cat sleeps. Bird sings.".toList)
     (1 / 2) 1 (by decide) (by decide)⟩

/-- Left fold of addition is the initial value plus the mapped sum. -/
theorem foldl_add_eq_sum {α : Type} (f : α → ℚ) :
    ∀ (l : List α) (a : ℚ),
      l.foldl (fun acc w => acc + f w) a = a + (l.map f).sum := by
  intro l
  induction l with
  | nil => intro a; simp
  | cons x t ih =>
    intro a
    simp only [List.foldl_cons, List.map_cons, List.sum_cons]
    rw [ih]
    ring

/-- The score accumulation loop computes the sum of the word frequencies. -/
theorem sumFreqs_eq_sum (text s : List Char) :
    sumFreqs text s = ((sentWords s).map (normFreq text)).sum := by
  unfold sumFreqs
  rw [foldl_add_eq_sum]
  ring

/-- Sums of mapped quotients with a fixed denominator. -/
theorem sum_map_div {α : Type} (f : α → ℚ) (d : ℚ) :
    ∀ l : List α, (l.map (fun w => f w / d)).sum = (l.map f).sum / d := by
  intro l
  induction l with
  | nil => simp
  | cons x t ih => simp [ih, add_div]

/-- A zero maximum frequency means there are no content words at all. -/
theorem contentWords_nil_of_maxFreq_zero (text : List Char)
    (h : maxFreq text = 0) : contentWords text = [] := by
  by_contra hne
  obtain ⟨w, hw⟩ := List.exists_mem_of_ne_nil _ hne
  have h1 : 0 < rawFreq text w := List.count_pos_iff.mpr hw
  have h2 : rawFreq text w ≤ maxFreq text :=
    le_foldr_max (List.mem_map.mpr ⟨w, hw, rfl⟩)
  omega

/-- The summed frequency of a sentence is the raw score numerator over the
maximum frequency (with the `x / 0 = 0` convention both sides vanish when
the maximum is `0`). -/
theorem sumFreqs_div (text s : List Char) :
    sumFreqs text s = (scoreNum text s : ℚ) / (maxFreq text : ℚ) := by
  rw [sumFreqs_eq_sum]
  have hnf : ∀ w ∈ sentWords s,
      normFreq text w = (rawFreq text w : ℚ) / (maxFreq text : ℚ) := by
    intro w _
    unfold normFreq
    by_cases h : w ∈ contentWords text
    · rw [if_pos h]
    · rw [if_neg h]
      unfold rawFreq
      rw [List.count_eq_zero.mpr h]
      simp
  have hcast : ((sentWords s).map (fun w => (rawFreq text w : ℚ))).sum
      = (scoreNum text s : ℚ) := by
    unfold scoreNum
    rw [Nat.cast_list_sum, List.map_map]
    rfl
  rw [List.map_congr_left hnf, sum_map_div, hcast]

/-- With a zero maximum, all sentence scores vanish. -/
theorem scores_zero_of_maxFreq_zero (text s : List Char)
    (h : maxFreq text = 0) :
    sumFreqs text s = 0 ∧ scoreNum text s = 0 := by
  have hcw := contentWords_nil_of_maxFreq_zero text h
  constructor
  · rw [sumFreqs_eq_sum]
    apply List.sum_eq_zero
    intro x hx
    obtain ⟨w, _, rfl⟩ := List.mem_map.mp hx
    unfold normFreq
    rw [if_neg (by rw [hcw]; exact List.not_mem_nil w)]
  · unfold scoreNum
    apply List.sum_eq_zero
    intro x hx
    obtain ⟨w, _, rfl⟩ := List.mem_map.mp hx
    unfold rawFreq
    rw [hcw]
    exact List.count_nil w

/-- Normalized frequencies are nonnegative. -/
theorem normFreq_nonneg (text w : List Char) : 0 ≤ normFreq text w := by
  unfold normFreq
  split
  · exact div_nonneg (Nat.cast_nonneg _) (Nat.cast_nonneg _)
  · exact le_refl 0

/-- Sentence score sums are nonnegative. -/
theorem sumFreqs_nonneg (text s : List Char) : 0 ≤ sumFreqs text s := by
  rw [sumFreqs_eq_sum]
  apply List.sum_nonneg
  intro x hx
  obtain ⟨w, _, rfl⟩ := List.mem_map.mp hx
  exact normFreq_nonneg text w

/-- An empty sentence has score numerator zero. -/
theorem scoreNum_of_len_zero (text s : List Char)
    (h : (sentWords s).length = 0) : scoreNum text s = 0 := by
  unfold scoreNum
  rw [List.length_eq_zero.mp h]
  rfl

/-- Faithfulness of the integer comparison key: comparing two sentences by
`keyGe` of their `scoreKey`s is exactly comparing the float scores
`sentScoreVal` the Python code sorts by. -/
theorem keyGe_iff_score_le (text s t : List Char) :
    keyGe (scoreKey text s) (scoreKey text t)
      ↔ sentScoreVal text t ≤ sentScoreVal text s := by
  unfold keyGe scoreKey sentScoreVal
  rcases Nat.eq_zero_or_pos (maxFreq text) with hM | hM
  · obtain ⟨hfs, hns⟩ := scores_zero_of_maxFreq_zero text s hM
    obtain ⟨hft, hnt⟩ := scores_zero_of_maxFreq_zero text t hM
    rw [hfs, hft, hns, hnt]
    split_ifs <;> simp
  · have hMne : (maxFreq text : ℚ) ≠ 0 := Nat.cast_ne_zero.mpr hM.ne'
    have hmR : (0 : ℝ) < (maxFreq text : ℝ) := by exact_mod_cast hM
    by_cases hs0 : (sentWords s).length = 0
    · have hns : scoreNum text s = 0 := scoreNum_of_len_zero text s hs0
      by_cases ht0 : (sentWords t).length = 0
      · simp only [if_pos hs0, if_pos ht0, hns]
        simp
      · have hyR : (0 : ℝ) < Real.sqrt ((sentWords t).length) :=
          Real.sqrt_pos.mpr (by exact_mod_cast Nat.pos_of_ne_zero ht0)
        simp only [if_pos hs0, if_neg ht0, hns]
        rw [sumFreqs_div text t]
        push_cast
        rw [div_div, div_le_iff₀ (mul_pos hmR hyR)]
        simp only [zero_mul, mul_one]
        constructor
        · intro h
          have hz : scoreNum text t = 0 :=
            pow_eq_zero_iff two_ne_zero |>.mp (Nat.le_zero.mp h)
          simp [hz]
        · intro h
          have hzR : (scoreNum text t : ℝ) = 0 :=
            le_antisymm h (Nat.cast_nonneg _)
          have hz : scoreNum text t = 0 := by exact_mod_cast hzR
          simp [hz]
    · by_cases ht0 : (sentWords t).length = 0
      · have hnt : scoreNum text t = 0 := scoreNum_of_len_zero text t ht0
        have hxR : (0 : ℝ) < Real.sqrt ((sentWords s).length) :=
          Real.sqrt_pos.mpr (by exact_mod_cast Nat.pos_of_ne_zero hs0)
        simp only [if_neg hs0, if_pos ht0, hnt]
        rw [sumFreqs_div text s]
        push_cast
        constructor
        · intro _
          positivity
        · intro _
          simp
      · have hxR : (0 : ℝ) < Real.sqrt ((sentWords s).length) :=
          Real.sqrt_pos.mpr (by exact_mod_cast Nat.pos_of_ne_zero hs0)
        have hyR : (0 : ℝ) < Real.sqrt ((sentWords t).length) :=
          Real.sqrt_pos.mpr (by exact_mod_cast Nat.pos_of_ne_zero ht0)
        simp only [if_neg hs0, if_neg ht0]
        rw [sumFreqs_div text s, sumFreqs_div text t]
        push_cast
        rw [div_div, div_div,
          div_le_div_iff₀ (mul_pos hmR hyR) (mul_pos hmR hxR)]
        rw [show (scoreNum text t : ℝ) * ((maxFreq text : ℝ)
              * Real.sqrt ((sentWords s).length))
            = (maxFreq text : ℝ)
              * ((scoreNum text t : ℝ) * Real.sqrt ((sentWords s).length))
          from by ring,
          show (scoreNum text s : ℝ) * ((maxFreq text : ℝ)
              * Real.sqrt ((sentWords t).length))
            = (maxFreq text : ℝ)
              * ((scoreNum text s : ℝ) * Real.sqrt ((sentWords t).length))
          from by ring,
          mul_le_mul_left hmR]
        rw [mul_self_le_mul_self_iff
          (mul_nonneg (Nat.cast_nonneg _) (Real.sqrt_nonneg _))
          (mul_nonneg (Nat.cast_nonneg _) (Real.sqrt_nonneg _))]
        rw [show (scoreNum text t : ℝ) * Real.sqrt ((sentWords s).length)
              * ((scoreNum text t : ℝ) * Real.sqrt ((sentWords s).length))
            = (scoreNum text t : ℝ) * (scoreNum text t : ℝ)
              * (Real.sqrt ((sentWords s).length)
                * Real.sqrt ((sentWords s).length))
          from by ring,
          show (scoreNum text s : ℝ) * Real.sqrt ((sentWords t).length)
              * ((scoreNum text s : ℝ) * Real.sqrt ((sentWords t).length))
            = (scoreNum text s : ℝ) * (scoreNum text s : ℝ)
              * (Real.sqrt ((sentWords t).length)
                * Real.sqrt ((sentWords t).length))
          from by ring,
          Real.mul_self_sqrt (Nat.cast_nonneg _),
          Real.mul_self_sqrt (Nat.cast_nonneg _)]
        constructor
        · intro h
          have h' : ((scoreNum text t) ^ 2 * (sentWords s).length : ℕ)
              ≤ ((scoreNum text s) ^ 2 * (sentWords t).length : ℕ) := h
          calc (scoreNum text t : ℝ) * (scoreNum text t : ℝ)
              * ((sentWords s).length : ℝ)
              = (((scoreNum text t) ^ 2 * (sentWords s).length : ℕ) : ℝ) := by
                push_cast; ring
            _ ≤ (((scoreNum text s) ^ 2 * (sentWords t).length : ℕ) : ℝ) := by
                exact_mod_cast h'
            _ = (scoreNum text s : ℝ) * (scoreNum text s : ℝ)
                * ((sentWords t).length : ℝ) := by push_cast; ring
        · intro h
          have h' : (((scoreNum text t) ^ 2 * (sentWords s).length : ℕ) : ℝ)
              ≤ (((scoreNum text s) ^ 2 * (sentWords t).length : ℕ) : ℝ) := by
            calc (((scoreNum text t) ^ 2 * (sentWords s).length : ℕ) : ℝ)
                = (scoreNum text t : ℝ) * (scoreNum text t : ℝ)
                  * ((sentWords s).length : ℝ) := by push_cast; ring
              _ ≤ (scoreNum text s : ℝ) * (scoreNum text s : ℝ)
                  * ((sentWords t).length : ℝ) := h
              _ = (((scoreNum text s) ^ 2 * (sentWords t).length : ℕ) : ℝ) := by
                  push_cast; ring
          exact_mod_cast h'

/-- C1 counterexample: in the text `"alpha beta gamma delta. eagle."`
every content word has normalized frequency `1`, so the first sentence has
frequency sum `4` over `4` word tokens.  The code scores it as
`4 / sqrt 4 = 2`, not as the claimed `4 / 4 = 1`: the score is NOT the sum
normalized by the sentence's length. -/
theorem score_formula_cex :
    sentScoreVal ("alpha beta gamma delta. eagle.".toList)
        ("alpha beta gamma delta.".toList)
      ≠ (sumFreqs ("alpha beta gamma delta. eagle.".toList)
            ("alpha beta gamma delta.".toList) : ℝ)
        / ((sentWords ("alpha beta gamma delta.".toList)).length : ℝ) := by
  have hM : maxFreq ("alpha beta gamma delta. eagle.".toList) = 1 := by decide
  have hn : scoreNum ("alpha beta gamma delta. eagle.".toList)
      ("alpha beta gamma delta.".toList) = 4 := by decide
  have hlen : (sentWords ("alpha beta gamma delta.".toList)).length = 4 := by
    decide
  have hsum : sumFreqs ("alpha beta gamma delta. eagle.".toList)
      ("alpha beta gamma delta.".toList) = 4 := by
    rw [sumFreqs_div, hn, hM]
    norm_num
  unfold sentScoreVal
  rw [if_neg (by rw [hlen]; norm_num), hsum, hlen]
  have h4 : Real.sqrt ((4 : ℕ) : ℝ) = 2 := by
    rw [show ((4 : ℕ) : ℝ) = 2 ^ 2 by norm_num, Real.sqrt_sq (by norm_num)]
  rw [h4]
  push_cast
  norm_num

/-- C1 amended: the score of a non-empty sentence is the sum of the
normalized frequencies of its constituent words divided by the SQUARE ROOT
of the sentence's length, and comparing the integer keys that the embedded
summarizer sorts by is exactly comparing these scores. -/
theorem sentence_score_formula (text s : List Char)
    (h : (sentWords s).length ≠ 0) :
    sentScoreVal text s
      = ((((sentWords s).map (normFreq text)).sum : ℚ) : ℝ)
        / Real.sqrt ((sentWords s).length)
      ∧ ∀ t, (keyGe (scoreKey text s) (scoreKey text t)
          ↔ sentScoreVal text t ≤ sentScoreVal text s) := by
  constructor
  · unfold sentScoreVal
    rw [if_neg h, sumFreqs_eq_sum]
  · intro t
    exact keyGe_iff_score_le text s t

/-- Tokenizing a sentence into class runs and concatenating them back
reproduces the sentence: `\w+|\W+` partitions the input. -/
theorem classRuns_flatten : ∀ l : List Char, (classRuns l).flatten = l := by
  intro l
  induction l with
  | nil => rfl
  | cons c cs ih =>
    cases cs with
    | nil => rfl
    | cons d ds =>
      simp only [classRuns]
      split
      · cases hr : classRuns (d :: ds) with
        | nil =>
          rw [hr] at ih
          exact absurd ih (by simp)
        | cons r rs =>
          rw [hr] at ih
          simp only [List.flatten_cons] at ih ⊢
          rw [List.cons_append]
          rw [← List.flatten_cons] at ih ⊢
          simp only [List.flatten_cons] at ih ⊢
          rw [ih]
      · simp only [List.flatten_cons, List.singleton_append]
        rw [ih]

/-- Witness for the amended C1 at a concrete two-word sentence. -/
theorem sentence_score_formula_witness :
    (sentWords ("Hi there.".toList)).length ≠ 0 ∧
      (sentScoreVal ("Hi there. Bye.".toList) ("Hi there.".toList)
        = ((((sentWords ("Hi there.".toList)).map
              (normFreq ("Hi there. Bye.".toList))).sum : ℚ) : ℝ)
          / Real.sqrt ((sentWords ("Hi there.".toList)).length)
      ∧ ∀ t, (keyGe (scoreKey ("Hi there. Bye.".toList) ("Hi there.".toList))
            (scoreKey ("Hi there. Bye.".toList) t)
          ↔ sentScoreVal ("Hi there. Bye.".toList) t
              ≤ sentScoreVal ("Hi there. Bye.".toList) ("Hi there.".toList))) :=
  ⟨by decide,
   sentence_score_formula ("Hi there. Bye.".toList) ("Hi there.".toList)
     (by decide)⟩

/-- With `strength = 0` and nonnegative draws, the token loop replaces
nothing and only advances the `rand` index. -/
theorem paraTokens_zero (rng : Rng) (h : ∀ n, 0 ≤ rng.rand n) :
    ∀ (ts : List (List Char)) (i j : ℕ),
      ∃ i2, paraTokens rng 0 ts i j = (ts, i2, j) := by
  intro ts
  induction ts with
  | nil => intro i j; exact ⟨i, rfl⟩
  | cons t ts ih =>
    intro i j
    by_cases hw : isWordRun t = true
    · have hlt : ¬ rng.rand i < 0 := not_lt.mpr (h i)
      obtain ⟨i2, hrec⟩ := ih (i + 1) j
      refine ⟨i2, ?_⟩
      simp only [paraTokens, hw, if_true, if_neg hlt, hrec]
    · obtain ⟨i2, hrec⟩ := ih i j
      refine ⟨i2, ?_⟩
      simp only [paraTokens, if_neg hw, hrec]

/-- With `strength = 0`, the sentence loop returns every sentence
unchanged. -/
theorem paraSentences_zero (rng : Rng) (h : ∀ n, 0 ≤ rng.rand n) :
    ∀ (ss : List (List Char)) (i j : ℕ),
      ∃ i2, paraSentences rng 0 ss i j = (ss, i2, j) := by
  intro ss
  induction ss with
  | nil => intro i j; exact ⟨i, rfl⟩
  | cons s ss ih =>
    intro i j
    obtain ⟨i1, htok⟩ := paraTokens_zero rng h (classRuns s) i j
    obtain ⟨i2, hrec⟩ := ih i1 j
    refine ⟨i2, ?_⟩
    simp only [paraSentences, htok, hrec]
    rw [classRuns_flatten]

/-- C6: with `strength = 0` (and `random.random()` draws in `[0, 1)`, here
only their nonnegativity is needed) the paraphraser replaces no word token
and never shuffles: it returns exactly the split sentences, each unchanged,
joined by single spaces.  Moreover for every sentence the tokenization
concatenates back to the sentence, so punctuation tokens pass through. -/
theorem paraphrase_strength_zero (rng : Rng) (text : List Char)
    (h : ∀ n, 0 ≤ rng.rand n) :
    paraphrase_text rng 0 text
        = List.intercalate [' '] (split_sentences text)
      ∧ ∀ s : List Char, (classRuns s).flatten = s := by
  refine ⟨?_, classRuns_flatten⟩
  obtain ⟨i2, hps⟩ := paraSentences_zero rng h (split_sentences text) 0 0
  simp only [paraphrase_text, hps]
  have hcond : ¬ (1 < (split_sentences text).length
      ∧ rng.rand i2 < 1 / 5 * 0) := by
    rintro ⟨-, hlt⟩
    rw [mul_zero] at hlt
    exact absurd hlt (not_lt.mpr (h i2))
  rw [if_neg hcond]

/-- Witness for C6 at a concrete rng and text. -/
theorem paraphrase_strength_zero_witness :
    paraphrase_text ⟨fun _ => 1 / 2, fun _ => 0, id⟩ 0
        ("Hello there. How are you?".toList)
      = List.intercalate [' ']
          (split_sentences ("Hello there. How are you?".toList)) :=
  (paraphrase_strength_zero ⟨fun _ => 1 / 2, fun _ => 0, id⟩
    ("Hello there. How are you?".toList) (fun _ => by norm_num)).1

/-- C10: when WordNet is unavailable, `synonym_for` on a word that is not a
key of the fallback thesaurus (case-insensitively) strips a trailing
`"ing"` exactly when the word ends in `"ing"` and is longer than 4
characters, and otherwise returns the word unchanged. -/
theorem synonym_fallback (pick : ℕ) (word : List Char)
    (h : lookupSyns (toLowerStr word) = none) :
    (endsIng word = true ∧ 4 < word.length →
        synonym_for pick word ++ ['i', 'n', 'g'] = word)
      ∧ (¬ (endsIng word = true ∧ 4 < word.length) →
        synonym_for pick word = word) := by
  unfold synonym_for
  rw [h]
  constructor
  · intro hc
    simp only [if_pos hc]
    obtain ⟨hing, _⟩ := hc
    have hb : word.reverse.take 3 = ['g', 'n', 'i'] :=
      of_decide_eq_true hing
    have h3 : word.drop (word.length - 3) = ['i', 'n', 'g'] := by
      have hr := List.rtake_eq_reverse_take_reverse (l := word) (n := 3)
      rw [List.rtake, hb] at hr
      simpa using hr
    rw [← h3, List.take_append_drop]
  · intro hc
    simp only [if_neg hc]

/-- Witness for C10: `"walking"` strips to `"walk"`, and `"sing"` (length
4) passes through unchanged. -/
theorem synonym_fallback_witness :
    lookupSyns (toLowerStr ("walking".toList)) = none ∧
      (endsIng ("walking".toList) = true ∧ 4 < ("walking".toList).length) ∧
      synonym_for 0 ("walking".toList) ++ ['i', 'n', 'g']
        = "walking".toList ∧
      lookupSyns (toLowerStr ("sing".toList)) = none ∧
      synonym_for 0 ("sing".toList) = "sing".toList :=
  ⟨by decide, by decide,
   (synonym_fallback 0 ("walking".toList) (by decide)).1 (by decide),
   by decide,
   (synonym_fallback 0 ("sing".toList) (by decide)).2 (by decide)⟩

/-- C5: each endpoint returns the 400 error exactly when the request's
text, stripped of surrounding whitespace, is empty; on any other request it
returns the processed result. -/
theorem api_validation (sreq : SummarizeReq) (preq : ParaphraseReq)
    (rng : Rng) :
    ((∃ e, api_summarize sreq = .error e)
        ↔ trimChars (sreq.text.getD []) = [])
      ∧ (∀ e, api_summarize sreq = .error e → e.1 = 400)
      ∧ (trimChars (sreq.text.getD []) ≠ [] →
          api_summarize sreq = .ok
            (List.intercalate [' ']
              (summarize_text (trimChars (sreq.text.getD []))
                (sreq.ratio.getD (3 / 10)) (sreq.min_sentences.getD 1)),
             summarize_text (trimChars (sreq.text.getD []))
               (sreq.ratio.getD (3 / 10)) (sreq.min_sentences.getD 1)))
      ∧ ((∃ e, api_paraphrase rng preq = .error e)
          ↔ trimChars (preq.text.getD []) = [])
      ∧ (∀ e, api_paraphrase rng preq = .error e → e.1 = 400)
      ∧ (trimChars (preq.text.getD []) ≠ [] →
          api_paraphrase rng preq = .ok
            (paraphrase_text rng (preq.strength.getD (3 / 10))
              (trimChars (preq.text.getD [])))) := by
  have hsum_err : trimChars (sreq.text.getD []) = [] →
      api_summarize sreq = .error (400, "No text provided.".toList) := by
    intro hs
    simp only [api_summarize, if_pos hs]
  have hsum_ok : trimChars (sreq.text.getD []) ≠ [] →
      api_summarize sreq = .ok
        (List.intercalate [' ']
          (summarize_text (trimChars (sreq.text.getD []))
            (sreq.ratio.getD (3 / 10)) (sreq.min_sentences.getD 1)),
         summarize_text (trimChars (sreq.text.getD []))
           (sreq.ratio.getD (3 / 10)) (sreq.min_sentences.getD 1)) := by
    intro hs
    simp only [api_summarize, if_neg hs]
  have hpar_err : trimChars (preq.text.getD []) = [] →
      api_paraphrase rng preq = .error (400, "No text provided.".toList) := by
    intro hs
    simp only [api_paraphrase, if_pos hs]
  have hpar_ok : trimChars (preq.text.getD []) ≠ [] →
      api_paraphrase rng preq = .ok
        (paraphrase_text rng (preq.strength.getD (3 / 10))
          (trimChars (preq.text.getD []))) := by
    intro hs
    simp only [api_paraphrase, if_neg hs]
  refine ⟨⟨?_, fun hs => ⟨_, hsum_err hs⟩⟩, ?_, hsum_ok,
    ⟨?_, fun hs => ⟨_, hpar_err hs⟩⟩, ?_, hpar_ok⟩
  · rintro ⟨e, he⟩
    by_contra hs
    rw [hsum_ok hs] at he
    cases he
  · intro e he
    by_cases hs : trimChars (sreq.text.getD []) = []
    · rw [hsum_err hs] at he
      injection he with h
      rw [← h]
    · rw [hsum_ok hs] at he
      cases he
  · rintro ⟨e, he⟩
    by_contra hs
    rw [hpar_ok hs] at he
    cases he
  · intro e he
    by_cases hs : trimChars (preq.text.getD []) = []
    · rw [hpar_err hs] at he
      injection he with h
      rw [← h]
    · rw [hpar_ok hs] at he
      cases he

/-- Witness for C5: an all-whitespace summarize request errs with 400, and
a paraphrase request with text paraphrases successfully. -/
theorem api_validation_witness :
    (∃ e, api_summarize ⟨some ("   ".toList), none, none⟩ = .error e) ∧
      (trimChars ((some ("Hi there.".toList)).getD []) ≠ [] →
        api_paraphrase ⟨fun _ => 1 / 2, fun _ => 0, id⟩
            ⟨some ("Hi there.".toList), some 0⟩
          = .ok (paraphrase_text ⟨fun _ => 1 / 2, fun _ => 0, id⟩
              ((some ((0 : ℚ))).getD (3 / 10) )
              (trimChars ((some ("Hi there.".toList)).getD [])))) :=
  ⟨((api_validation ⟨some ("   ".toList), none, none⟩
      ⟨some ("Hi there.".toList), some 0⟩
      ⟨fun _ => 1 / 2, fun _ => 0, id⟩).1).mpr (by decide),
   (api_validation ⟨some ("   ".toList), none, none⟩
      ⟨some ("Hi there.".toList), some 0⟩
      ⟨fun _ => 1 / 2, fun _ => 0, id⟩).2.2.2.2.2⟩

end App
